import Mathlib

/-!
Verification of the social-net actor core (Rust sources under
`src/components-rust/social-net-rust-social-net/src/`) against its
natural-language specification.  The Rust code is shallowly embedded:
`HashMap`/`HashSet` become association lists (keys unique in reachable
states), `chrono` timestamps become `Nat`, fallible operations return
`Except String`, and the host-runtime fire-and-forget triggers are
returned as explicit lists of messages instead of being sent.
-/

namespace SocialNet

/-- Timestamps (`chrono::DateTime<Utc>`) are modelled as naturals. -/
abbrev Time := Nat

/-- `common::UserConnectionType`. -/
inductive UserConnectionType where
  | Friend
  | Follower
  | Following
deriving DecidableEq, Repr

/-- `common::UserConnectionType::get_opposite`. -/
def UserConnectionType.get_opposite : UserConnectionType → UserConnectionType
  | .Follower => .Following
  | .Following => .Follower
  | .Friend => .Friend

/-- `common::LikeType`. -/
inductive LikeType where
  | Like
  | Insightful
  | Love
  | Dislike
deriving DecidableEq, Repr

/-! ### Association-list counterparts of `HashMap<String, _>` -/

/-- `HashMap::contains_key`. -/
def containsKey (m : List (String × β)) (k : String) : Bool :=
  m.any (fun kv => kv.1 == k)

/-- `HashMap::get` (maps are used with unique keys, so the first hit is the entry). -/
def lookupKey (m : List (String × β)) (k : String) : Option β :=
  (m.find? (fun kv => kv.1 == k)).map (·.2)

/-- `HashMap::insert`: replace the existing entry for the key, or append a new one. -/
def insertKey (m : List (String × β)) (k : String) (v : β) : List (String × β) :=
  if containsKey m k then
    m.map (fun kv => if kv.1 == k then (k, v) else kv)
  else
    m ++ [(k, v)]

/-- `HashMap::remove` (by key). -/
def eraseKey (m : List (String × β)) (k : String) : List (String × β) :=
  m.filter (fun kv => !(kv.1 == k))

/-! ### Snapshot codec (`common::snapshot`)

`serde_json` is external; the payload codec is a parameter (`enc`, `dec`).
`snapshot::serialize` prepends the version byte to the encoded payload and
`snapshot::deserialize` splits it off again.  `split_at(1)` aborts the
process on a zero-length slice, which the embedding records as `none`;
`some r` is the function returning the value `r`. -/

/-- `common::snapshot::SERIALIZATION_VERSION_V1`. -/
def SERIALIZATION_VERSION_V1 : Nat := 1

/-- `common::snapshot::serialize`. -/
def snapshotSerialize (enc : α → Except String (List Nat)) (value : α) :
    Except String (List Nat) :=
  match enc value with
  | .error e => .error e
  | .ok data => .ok (SERIALIZATION_VERSION_V1 :: data)

/-- `common::snapshot::deserialize`.  `none` models the `split_at(1)` abort on
an empty input; otherwise the result dispatches on the version byte. -/
def snapshotDeserialize (dec : List Nat → Except String α) (bytes : List Nat) :
    Option (Except String α) :=
  match bytes with
  | [] => none
  | version :: data =>
    some (if version = SERIALIZATION_VERSION_V1 then dec data
          else .error "Unsupported serialization version")

/-! ### User (`user::mod.rs`) -/

/-- `user::ConnectedUser`.  The `HashSet<UserConnectionType>` becomes a
duplicate-free list. -/
structure ConnectedUser where
  user_id : String
  connection_types : List UserConnectionType
  created_at : Time
  updated_at : Time
deriving DecidableEq, Repr

/-- `ConnectedUser::new`. -/
def ConnectedUser.new (user_id : String) (connection_type : UserConnectionType)
    (now : Time) : ConnectedUser :=
  { user_id := user_id, connection_types := [connection_type],
    created_at := now, updated_at := now }

/-- `ConnectedUser::add_connection_type`: `HashSet::insert`, bumping
`updated_at` only when the element was actually inserted. -/
def ConnectedUser.add_connection_type (c : ConnectedUser)
    (connection_type : UserConnectionType) (now : Time) : ConnectedUser :=
  if connection_type ∈ c.connection_types then c
  else { c with
          connection_types := c.connection_types ++ [connection_type]
          updated_at := now }

/-- `ConnectedUser::remove_connection_type`: `HashSet::remove`, bumping
`updated_at` only when the element was present. -/
def ConnectedUser.remove_connection_type (c : ConnectedUser)
    (connection_type : UserConnectionType) (now : Time) : ConnectedUser :=
  if connection_type ∈ c.connection_types then
    { c with
        connection_types :=
          c.connection_types.filter (fun t => !(t == connection_type))
        updated_at := now }
  else c

/-- `ConnectedUser::has_connection_type`. -/
def ConnectedUser.has_connection_type (c : ConnectedUser)
    (connection_type : UserConnectionType) : Bool :=
  c.connection_types.contains connection_type

/-- `user::User`. -/
structure User where
  user_id : String
  name : Option String
  email : Option String
  connected_users : List (String × ConnectedUser)
  created_at : Time
  updated_at : Time
deriving DecidableEq, Repr

/-- `User::new`. -/
def User.new (user_id : String) (now : Time) : User :=
  { user_id := user_id, name := none, email := none, connected_users := [],
    created_at := now, updated_at := now }

/-- `HashMap::entry(k).and_modify(f).or_insert(dflt)`. -/
def modifyOrInsert (m : List (String × β)) (k : String) (f : β → β) (dflt : β) :
    List (String × β) :=
  if containsKey m k then
    m.map (fun kv => if kv.1 == k then (kv.1, f kv.2) else kv)
  else
    m ++ [(k, dflt)]

/-- `User::connect_user`.  Returns the new state and the `bool` the Rust
method returns (`true` iff a new edge was recorded). -/
def User.connect_user (u : User) (user_id : String)
    (connection_type : UserConnectionType) (now : Time) : User × Bool :=
  if user_id = u.user_id then (u, false)
  else
    let should_connect :=
      match lookupKey u.connected_users user_id with
      | none => true
      | some c => !(c.has_connection_type connection_type)
    if should_connect then
      ({ u with
          connected_users := modifyOrInsert u.connected_users user_id
            (fun c => c.add_connection_type connection_type now)
            (ConnectedUser.new user_id connection_type now),
          updated_at := now }, true)
    else (u, false)

/-- `User::disconnect_user`.  Returns the new state and the `bool` the Rust
method returns (`true` iff the edge of that type was present and removed). -/
def User.disconnect_user (u : User) (user_id : String)
    (connection_type : UserConnectionType) (now : Time) : User × Bool :=
  if user_id = u.user_id then (u, false)
  else
    let should_disconnect :=
      match lookupKey u.connected_users user_id with
      | none => false
      | some c => c.has_connection_type connection_type
    if should_disconnect then
      if (lookupKey u.connected_users user_id).any
          (fun c => c.connection_types.length == 1) then
        ({ u with connected_users := eraseKey u.connected_users user_id,
                  updated_at := now }, true)
      else
        ({ u with
            connected_users := modifyOrInsert u.connected_users user_id
              (fun c => c.remove_connection_type connection_type now)
              (ConnectedUser.new user_id connection_type now),
            updated_at := now }, true)
    else (u, false)

/-- A fire-and-forget `trigger_connect_user`/`trigger_disconnect_user`
message sent to the peer's own User actor. -/
structure ConnectTrigger where
  target : String
  sender : String
  connection_type : UserConnectionType
deriving DecidableEq, Repr

/-- `UserAgentImpl::connect_user`: lazily materializes the state
(`get_or_insert(User::new(id))`), runs `User::connect_user`, and sends the
mirror trigger carrying the opposite type exactly when a new edge was
recorded.  The trigger list stands for the one-way messages. -/
def UserAgentImpl.connect_user (agent_id : String) (st : Option User)
    (user_id : String) (connection_type : UserConnectionType) (now : Time) :
    Option User × List ConnectTrigger :=
  let state := st.getD (User.new agent_id now)
  let res := state.connect_user user_id connection_type now
  (some res.1,
    if res.2 then
      [{ target := user_id, sender := res.1.user_id,
         connection_type := connection_type.get_opposite }]
    else [])

/-- `UserAgentImpl::disconnect_user`, analogously. -/
def UserAgentImpl.disconnect_user (agent_id : String) (st : Option User)
    (user_id : String) (connection_type : UserConnectionType) (now : Time) :
    Option User × List ConnectTrigger :=
  let state := st.getD (User.new agent_id now)
  let res := state.disconnect_user user_id connection_type now
  (some res.1,
    if res.2 then
      [{ target := user_id, sender := res.1.user_id,
         connection_type := connection_type.get_opposite }]
    else [])

/-! ### Post (`post::mod.rs`) -/

/-- `post::COMMENTS_MAX_COUNT`. -/
def COMMENTS_MAX_COUNT : Nat := 2000

/-- `post::Comment`.  The like map becomes an association list. -/
structure Comment where
  comment_id : String
  parent_comment_id : Option String
  content : String
  likes : List (String × LikeType)
  created_by : String
  created_at : Time
  updated_at : Time
deriving DecidableEq, Repr

/-- `Comment::new`; the freshly minted UUID is a parameter. -/
def Comment.new (comment_id : String) (user_id : String) (content : String)
    (parent_comment_id : Option String) (now : Time) : Comment :=
  { comment_id := comment_id, parent_comment_id := parent_comment_id,
    content := content, likes := [], created_by := user_id,
    created_at := now, updated_at := now }

/-- `post::Post`. -/
structure Post where
  post_id : String
  content : String
  created_by : String
  likes : List (String × LikeType)
  comments : List (String × Comment)
  created_at : Time
  updated_at : Time
deriving DecidableEq, Repr

/-- `Post::new`. -/
def Post.new (post_id : String) (now : Time) : Post :=
  { post_id := post_id, content := "", created_by := "", likes := [],
    comments := [], created_at := now, updated_at := now }

/-- `Post::set_like`: `HashMap::insert`; returns whether a previous value
existed. -/
def Post.set_like (p : Post) (user_id : String) (like_type : LikeType)
    (now : Time) : Post × Bool :=
  ({ p with likes := insertKey p.likes user_id like_type, updated_at := now },
   containsKey p.likes user_id)

/-- `Post::remove_like`: `HashMap::remove`, bumping `updated_at` only when an
entry was removed; returns whether one was. -/
def Post.remove_like (p : Post) (user_id : String) (now : Time) : Post × Bool :=
  if containsKey p.likes user_id then
    ({ p with likes := eraseKey p.likes user_id, updated_at := now }, true)
  else (p, false)

/-- `Post::add_comment`; the fresh comment UUID is a parameter. -/
def Post.add_comment (p : Post) (user_id : String) (content : String)
    (parent_comment_id : Option String) (comment_id : String) (now : Time) :
    Except String (Post × String) :=
  match parent_comment_id with
  | some parent_id =>
    if !(containsKey p.comments parent_id) then .error "Parent comment not found"
    else
      .ok ({ p with
              comments := insertKey p.comments comment_id
                (Comment.new comment_id user_id content parent_comment_id now)
              updated_at := now }, comment_id)
  | none =>
    .ok ({ p with
            comments := insertKey p.comments comment_id
              (Comment.new comment_id user_id content parent_comment_id now)
            updated_at := now }, comment_id)

/-- `collect_comments_to_remove`: the current comment followed by the
recursively collected subtrees of every comment whose parent pointer is the
current comment.  The Rust recursion's depth is bounded by the size of the
comment map on every acyclic state, so the embedding carries an explicit
fuel, spent once per tree level; `collectCommentsToRemove` below supplies
`comments.length`, which the acyclicity theorems show is enough. -/
def collectGo (comments : List (String × Comment)) :
    Nat → String → List String
  | 0, comment_id => [comment_id]
  | fuel + 1, comment_id =>
    comment_id ::
      (comments.filter
          (fun kc => kc.2.parent_comment_id == some comment_id)).flatMap
        (fun kc => collectGo comments fuel kc.2.comment_id)

/-- `collect_comments_to_remove` at its call site in `Post::remove_comment`. -/
def collectCommentsToRemove (comments : List (String × Comment))
    (comment_id : String) : List String :=
  collectGo comments comments.length comment_id

/-- `Post::remove_comment`: fails with "Comment not found" if the id is not a
key; otherwise removes the transitively collected subtree atomically. -/
def Post.remove_comment (p : Post) (comment_id : String) (now : Time) :
    Except String Post :=
  if !(containsKey p.comments comment_id) then .error "Comment not found"
  else
    let to_remove := collectCommentsToRemove p.comments comment_id
    .ok { p with
            comments := p.comments.filter (fun kc => !(to_remove.contains kc.1))
            updated_at := now }

/-- `Post::set_comment_like`. -/
def Post.set_comment_like (p : Post) (comment_id : String) (user_id : String)
    (like_type : LikeType) (now : Time) : Except String Post :=
  match lookupKey p.comments comment_id with
  | some comment =>
    .ok { p with
            comments := insertKey p.comments comment_id
              { comment with
                  likes := insertKey comment.likes user_id like_type
                  updated_at := now } }
  | none => .error "Comment not found"

/-- `Post::remove_comment_like`: comment-not-found is an error; an absent like
on an existing comment leaves the likes (and `updated_at`) unchanged and
succeeds. -/
def Post.remove_comment_like (p : Post) (comment_id : String)
    (user_id : String) (now : Time) : Except String Post :=
  match lookupKey p.comments comment_id with
  | some comment =>
    if containsKey comment.likes user_id then
      .ok { p with
              comments := insertKey p.comments comment_id
                { comment with
                    likes := eraseKey comment.likes user_id
                    updated_at := now } }
    else .ok p
  | none => .error "Comment not found"

/-- `PostAgentImpl::remove_like`: "Post not exists" on an uninitialized
agent, otherwise delegates and discards the `bool` (silent success). -/
def PostAgentImpl.remove_like (st : Option Post) (user_id : String)
    (now : Time) : Option Post × Except String Unit :=
  match st with
  | none => (none, .error "Post not exists")
  | some p => (some (p.remove_like user_id now).1, .ok ())

/-- `PostAgentImpl::remove_comment_like`. -/
def PostAgentImpl.remove_comment_like (st : Option Post) (comment_id : String)
    (user_id : String) (now : Time) : Option Post × Except String Unit :=
  match st with
  | none => (none, .error "Post not exists")
  | some p =>
    match p.remove_comment_like comment_id user_id now with
    | .ok p2 => (some p2, .ok ())
    | .error e => (some p, .error e)

/-! ### Chat (`chat::mod.rs`) -/

/-- `chat::MAX_CHAT_LENGTH`. -/
def MAX_CHAT_LENGTH : Nat := 2000

/-- `chat::Message`. -/
structure Message where
  message_id : String
  content : String
  likes : List (String × LikeType)
  created_by : String
  created_at : Time
  updated_at : Time
deriving DecidableEq, Repr

/-- `chat::Chat`.  The participant `HashSet` becomes a duplicate-free list. -/
structure Chat where
  chat_id : String
  created_by : String
  participants : List String
  messages : List Message
  created_at : Time
  updated_at : Time
deriving DecidableEq, Repr

/-- Replace the first message with the given id (`iter_mut().find` followed
by in-place mutation). -/
def updateFirstMessage (mid : String) (f : Message → Message) :
    List Message → List Message
  | [] => []
  | m :: ms =>
    if m.message_id == mid then f m :: ms
    else m :: updateFirstMessage mid f ms

/-- `Chat::remove_message_like`: `false` both when the message is missing and
when the like was absent on the found message; `updated_at` moves only on an
actual removal. -/
def Chat.remove_message_like (c : Chat) (message_id : String)
    (user_id : String) (now : Time) : Chat × Bool :=
  match c.messages.find? (fun m => m.message_id == message_id) with
  | some msg =>
    if containsKey msg.likes user_id then
      ({ c with
          messages := updateFirstMessage message_id
            (fun m => { m with
                          likes := eraseKey m.likes user_id
                          updated_at := now }) c.messages
          updated_at := now }, true)
    else (c, false)
  | none => (c, false)

/-- `ChatAgentImpl::remove_message_like`: "Chat not exists" on an
uninitialized agent; otherwise maps the inner `bool` to
`Ok(())`/`Err("Message not found")`.  (The `execute_chat_updates` fan-out on
success is a fire-and-forget trigger and is not part of the result.) -/
def ChatAgentImpl.remove_message_like (st : Option Chat) (message_id : String)
    (user_id : String) (now : Time) : Option Chat × Except String Unit :=
  match st with
  | none => (none, .error "Chat not exists")
  | some c =>
    let res := c.remove_message_like message_id user_id now
    (some res.1, if res.2 then .ok () else .error "Message not found")

/-! ### Coalescing updater and timeline fan-out (`post::mod.rs`) -/

/-- `post::PostUpdate`. -/
structure PostUpdate where
  post_id : String
  created_at : Time
  updated_at : Time
deriving DecidableEq, Repr

/-- `user_timeline::PostRef` as built by `execute_posts_update`
(`PostRef::new(post_id, created_by, created_at, connection_type,
updated_at)`); the `user_timeline/mod.rs` file under `src/` is a stale
iteration whose `PostRef` lacks the `updated_at` field that this call site
and the spec's timeline merge require. -/
structure PostRef where
  post_id : String
  created_by : String
  created_by_connection_type : Option UserConnectionType
  created_at : Time
  updated_at : Time
deriving DecidableEq, Repr

/-- `PostRef::new` with the argument order of the `execute_posts_update`
call sites. -/
def PostRef.new (post_id : String) (created_by : String) (created_at : Time)
    (created_by_connection_type : Option UserConnectionType)
    (updated_at : Time) : PostRef :=
  { post_id := post_id, created_by := created_by,
    created_by_connection_type := created_by_connection_type,
    created_at := created_at, updated_at := updated_at }

/-- `TimelinesUpdaterAgentImpl::add_update`: drop any buffered update with
the same post id, then append the new one (dedup by id, last write wins). -/
def TimelinesUpdater.add_update (updates : List PostUpdate)
    (update : PostUpdate) : List PostUpdate :=
  (updates.filter (fun x => !(x.post_id == update.post_id))) ++ [update]

/-- The partition loop of `execute_posts_updates`: each connected user whose
type set contains `Friend` is flagged `Friend`; otherwise, if it contains
`Follower`, flagged `Follower`; otherwise it is skipped.  The source inserts
into a fresh `HashMap<String, UserConnectionType>` keyed by the connection
keys, which are unique, so the loop is one decision per entry. -/
def notifyUserIds (connected_users : List (String × ConnectedUser)) :
    List (String × UserConnectionType) :=
  connected_users.filterMap (fun kc =>
    if UserConnectionType.Friend ∈ kc.2.connection_types then
      some (kc.1, UserConnectionType.Friend)
    else if UserConnectionType.Follower ∈ kc.2.connection_types then
      some (kc.1, UserConnectionType.Follower)
    else none)

/-- `post::execute_posts_update`: one untagged batch to the creator's own
timeline, then one batch tagged with the applicable connection type per
notify target.  Each list element is a `trigger_posts_updated` message
`(target user timeline, batch)`. -/
def execute_posts_update (user_id : String) (updates : List PostUpdate)
    (notify_user_ids : List (String × UserConnectionType)) :
    List (String × List PostRef) :=
  (user_id,
    updates.map (fun u => PostRef.new u.post_id user_id u.created_at none
      u.updated_at)) ::
  notify_user_ids.map (fun ct =>
    (ct.1,
      updates.map (fun u => PostRef.new u.post_id user_id u.created_at
        (some ct.2) u.updated_at)))

/-- `post::execute_posts_updates`: look up the creator's User (the read's
result is a parameter); on `None` abort silently returning `false` and
sending nothing, else partition the connections and fan out. -/
def execute_posts_updates (user : Option User) (user_id : String)
    (updates : List PostUpdate) : Bool × List (String × List PostRef) :=
  match user with
  | some u => (true, execute_posts_update user_id updates
      (notifyUserIds u.connected_users))
  | none => (false, [])

/-! ### UserTimeline (`user_timeline::mod.rs` and spec §4.2) -/

/-- `user_timeline::UserTimeline`. -/
structure UserTimeline where
  user_id : String
  posts : List PostRef
  created_at : Time
  updated_at : Time
deriving DecidableEq, Repr

/-- Descending-by-`updated_at` comparator of the timeline merge, as a total
`Bool` relation for the stable sort. -/
def postRefDescUpdated (a b : PostRef) : Bool :=
  b.updated_at ≤ a.updated_at

/-- `TIMELINE_POSTS_MAX_COUNT` of the spec's timeline merge. -/
def TIMELINE_POSTS_MAX_COUNT : Nat := 500

/-- Modelled from the spec: `UserTimeline.posts_updated(batch)` — the
batch-merge operation of §4.2 is not present under `src/` (the
`user_timeline/mod.rs` there is a stale iteration with only a single-post
`add_post`; the batch operation's caller `trigger_posts_updated` is in
`post/mod.rs`).  Per the spec it removes existing entries sharing an id with
the batch, appends the batch, re-sorts descending by `updated_at` (stable
sort, as Rust's `sort_by`) and truncates to 500. -/
def UserTimeline.posts_updated (tl : UserTimeline) (batch : List PostRef)
    (now : Time) : UserTimeline :=
  { tl with
      posts :=
        (((tl.posts.filter (fun p =>
            !(batch.any (fun b => b.post_id == p.post_id)))) ++
          batch).mergeSort postRefDescUpdated).take TIMELINE_POSTS_MAX_COUNT
      updated_at := now }

/-! ### Long-poll retrieval (`common::poll_for_updates`) -/

/-- The body of the `common::poll_for_updates` loop, fetch results indexed by
iteration.  Time is modelled by the sleeps alone (fetches are instantaneous),
so the elapsed time tested at iteration `k` is `k * iterWait`; on an empty
fetch the loop stops once that reaches `maxWait`, else sleeps and retries.
The extra `Nat` result counts fetch iterations.  The explicit fuel is spent
once per iteration; the top-level entry supplies `maxWait / iterWait + 2`,
which the termination theorems show is enough whenever `iterWait > 0`. -/
def pollFrom (fetch : Nat → Option (List α)) (iterWait maxWait : Nat) :
    Nat → Nat → Option (List α) × Nat
  | _, 0 => (none, 0)
  | k, fuel + 1 =>
    match fetch k with
    | none => (none, 1)
    | some updates =>
      if updates.isEmpty then
        if maxWait ≤ k * iterWait then (some [], 1)
        else
          let rest := pollFrom fetch iterWait maxWait (k + 1) fuel
          (rest.1, rest.2 + 1)
      else (some updates, 1)

/-- `common::poll_for_updates` with its defaults
(`iter_wait_time.unwrap_or(1000)`, `max_wait_time.unwrap_or(10000)`). -/
def poll_for_updates (fetch : Nat → Option (List α))
    (iter_wait_time max_wait_time : Option Nat) : Option (List α) × Nat :=
  let iterWait := iter_wait_time.getD 1000
  let maxWait := max_wait_time.getD 10000
  pollFrom fetch iterWait maxWait 0 (maxWait / iterWait + 2)

/-! ## Theorems -/

/-- C6: whenever `connect_user` records a new edge (peer distinct from the
user's own id, type not already present for that peer), the agent sends a
connect trigger to the peer carrying the opposite connection type, where
opposite(Friend)=Friend, opposite(Follower)=Following,
opposite(Following)=Follower; when the edge already exists or the peer is
the user itself, no trigger is sent. -/
theorem connect_user_mirrors_opposite (agent_id : String) (u : User)
    (user_id : String) (t : UserConnectionType) (now : Time) :
    (UserConnectionType.get_opposite .Friend = .Friend ∧
     UserConnectionType.get_opposite .Follower = .Following ∧
     UserConnectionType.get_opposite .Following = .Follower) ∧
    (user_id ≠ u.user_id →
      (∀ c, lookupKey u.connected_users user_id = some c →
        t ∉ c.connection_types) →
      (UserAgentImpl.connect_user agent_id (some u) user_id t now).2 =
        [{ target := user_id, sender := u.user_id,
           connection_type := t.get_opposite }]) ∧
    (user_id = u.user_id →
      (UserAgentImpl.connect_user agent_id (some u) user_id t now).2 = []) ∧
    (∀ c, lookupKey u.connected_users user_id = some c →
      t ∈ c.connection_types →
      (UserAgentImpl.connect_user agent_id (some u) user_id t now).2 = []) := by
  refine ⟨⟨rfl, rfl, rfl⟩, ?_, ?_, ?_⟩
  · intro hne habs
    simp only [UserAgentImpl.connect_user, Option.getD_some, User.connect_user,
      hne, if_false]
    cases hc : lookupKey u.connected_users user_id with
    | none => simp [hc]
    | some c =>
      have := habs c hc
      simp [hc, ConnectedUser.has_connection_type, this]
  · intro heq
    simp [UserAgentImpl.connect_user, User.connect_user, heq]
  · intro c hc hmem
    simp only [UserAgentImpl.connect_user, Option.getD_some, User.connect_user]
    by_cases heq : user_id = u.user_id
    · simp [heq]
    · simp [heq, hc, ConnectedUser.has_connection_type, hmem]

/-- C6 witness: concrete run where a Follower edge mirrors as Following. -/
theorem connect_user_mirrors_opposite_witness :
    (UserAgentImpl.connect_user "a" (some (User.new "a" 0)) "b"
      .Follower 5).2 =
      [{ target := "b", sender := "a",
         connection_type := UserConnectionType.Following }] := by
  have h := (connect_user_mirrors_opposite "a" (User.new "a" 0) "b"
    .Follower 5).2.1 (by decide) (by intro c hc; simp [User.new, lookupKey] at hc)
  simpa [User.new] using h

/-- C9: serialization prepends the version byte 1 to the payload,
deserialization of a serialized value returns the value, and any input whose
version byte differs from 1 fails with "Unsupported serialization version".
The payload codec (`serde_json`) is a parameter assumed to encode totally
and round-trip. -/
theorem snapshot_version_roundtrip {α : Type} (enc : α → Except String (List Nat))
    (dec : List Nat → Except String α)
    (henc : ∀ a, ∃ d, enc a = .ok d)
    (hdec : ∀ a d, enc a = .ok d → dec d = .ok a) (s : α) :
    (∃ payload, snapshotSerialize enc s = .ok (1 :: payload) ∧
      snapshotDeserialize dec (1 :: payload) = some (.ok s)) ∧
    (∀ v data, v ≠ 1 → snapshotDeserialize dec (v :: data) =
      some (.error "Unsupported serialization version")) := by
  constructor
  · obtain ⟨d, hd⟩ := henc s
    exact ⟨d, by simp [snapshotSerialize, hd, SERIALIZATION_VERSION_V1],
      by simp [snapshotDeserialize, SERIALIZATION_VERSION_V1, hdec s d hd]⟩
  · intro v data hv
    simp [snapshotDeserialize, SERIALIZATION_VERSION_V1, hv]

/-- Trivial concrete payload codec used by the snapshot witnesses. -/
def encNat (n : Nat) : Except String (List Nat) := .ok [n]

/-- Decoder matching `encNat`. -/
def decNat : List Nat → Except String Nat
  | [n] => .ok n
  | _ => .error "malformed payload"

/-- C9 witness: the codec round-trips at the value 5 and version byte 2 is
rejected. -/
theorem snapshot_version_roundtrip_witness :
    (∃ payload, snapshotSerialize encNat 5 = .ok (1 :: payload) ∧
      snapshotDeserialize decNat (1 :: payload) = some (.ok 5)) ∧
    snapshotDeserialize decNat [2, 7] =
      some (.error "Unsupported serialization version") := by
  have h := snapshot_version_roundtrip encNat decNat
    (fun a => ⟨[a], rfl⟩)
    (fun a d hd => by
      cases hd
      rfl) 5
  exact ⟨h.1, h.2 2 [7] (by decide)⟩

/-- C10: deserialization is undefined (process abort via `split_at(1)`) at
the empty input, and total — returning an `Ok` or `Err` value — on every
input of length at least 1. -/
theorem deserialize_empty_aborts {α : Type} (dec : List Nat → Except String α) :
    snapshotDeserialize dec [] = none ∧
    ∀ bytes, 1 ≤ bytes.length → (snapshotDeserialize dec bytes).isSome := by
  refine ⟨rfl, ?_⟩
  intro bytes h
  cases bytes with
  | nil => simp at h
  | cons v data => simp [snapshotDeserialize]

/-- C10 witness: the total part at the concrete input `[2, 3]`. -/
theorem deserialize_empty_aborts_witness :
    (snapshotDeserialize decNat [2, 3]).isSome :=
  (deserialize_empty_aborts decNat).2 [2, 3] (by decide)

theorem containsKey_eq_isSome_lookupKey (m : List (String × β)) (k : String) :
    containsKey m k = (lookupKey m k).isSome := by
  induction m with
  | nil => rfl
  | cons kv tl ih =>
    by_cases h : kv.1 == k
    · simp [containsKey, lookupKey, List.find?_cons, h]
    · simpa [containsKey, lookupKey, List.find?_cons, h] using ih

/-- Concrete chat with one message carrying no likes, for the C3
counterexample. -/
def chatC3 : Chat :=
  { chat_id := "c1", created_by := "u1", participants := ["u1", "u2"],
    messages := [{ message_id := "m1", content := "hi", likes := [],
                   created_by := "u1", created_at := 1, updated_at := 1 }],
    created_at := 1, updated_at := 1 }

/-- C3 counterexample: on an initialized chat whose message `m1` exists but
carries no like by `u2`, `remove_message_like` returns the error "Message
not found" instead of the silent success the claim asserts. -/
theorem remove_absent_message_like_errors :
    (chatC3.messages.any (fun m => m.message_id == "m1")) = true ∧
    (ChatAgentImpl.remove_message_like (some chatC3) "m1" "u2" 2).2 =
      .error "Message not found" := by
  constructor
  · rfl
  · rfl

/-- C3 amended: for an initialized Post, removing an absent like
(`remove_like`, `remove_comment_like` on an existing comment) is a silent
success and "Comment not found" is returned exactly when the comment is
missing; for an initialized Chat, `remove_message_like` succeeds exactly
when the message exists and carries the like, and returns "Message not
found" both when the message is missing and when the like is absent on an
existing message. -/
theorem remove_like_policy (p : Post) (c : Chat)
    (comment_id message_id user_id : String) (now : Time) :
    (PostAgentImpl.remove_like (some p) user_id now).2 = .ok () ∧
    ((PostAgentImpl.remove_comment_like (some p) comment_id user_id now).2 =
        .ok () ↔ containsKey p.comments comment_id = true) ∧
    ((PostAgentImpl.remove_comment_like (some p) comment_id user_id now).2 =
        .error "Comment not found" ↔
      containsKey p.comments comment_id = false) ∧
    ((ChatAgentImpl.remove_message_like (some c) message_id user_id now).2 =
        .ok () ↔
      ∃ m, c.messages.find? (fun x => x.message_id == message_id) = some m ∧
        containsKey m.likes user_id = true) ∧
    ((ChatAgentImpl.remove_message_like (some c) message_id user_id now).2 =
        .error "Message not found" ↔
      ¬ ∃ m, c.messages.find? (fun x => x.message_id == message_id) = some m ∧
        containsKey m.likes user_id = true) := by
  have hck := containsKey_eq_isSome_lookupKey p.comments comment_id
  refine ⟨rfl, ?_, ?_, ?_, ?_⟩
  · cases hc : lookupKey p.comments comment_id with
    | none => simp [PostAgentImpl.remove_comment_like,
        Post.remove_comment_like, hc, hck]
    | some comment =>
      by_cases hl : containsKey comment.likes user_id <;>
        simp [PostAgentImpl.remove_comment_like, Post.remove_comment_like,
          hc, hck, hl]
  · cases hc : lookupKey p.comments comment_id with
    | none => simp [PostAgentImpl.remove_comment_like,
        Post.remove_comment_like, hc, hck]
    | some comment =>
      by_cases hl : containsKey comment.likes user_id <;>
        simp [PostAgentImpl.remove_comment_like, Post.remove_comment_like,
          hc, hck, hl]
  · cases hm : c.messages.find? (fun x => x.message_id == message_id) with
    | none => simp [ChatAgentImpl.remove_message_like,
        Chat.remove_message_like, hm]
    | some msg =>
      by_cases hl : containsKey msg.likes user_id <;>
        simp [ChatAgentImpl.remove_message_like, Chat.remove_message_like,
          hm, hl]
  · cases hm : c.messages.find? (fun x => x.message_id == message_id) with
    | none => simp [ChatAgentImpl.remove_message_like,
        Chat.remove_message_like, hm]
    | some msg =>
      by_cases hl : containsKey msg.likes user_id <;>
        simp [ChatAgentImpl.remove_message_like, Chat.remove_message_like,
          hm, hl]

theorem lookupKey_cons (kv : String × β) (tl : List (String × β)) (k : String) :
    lookupKey (kv :: tl) k =
      if kv.1 == k then some kv.2 else lookupKey tl k := by
  by_cases h : kv.1 == k <;> simp [lookupKey, List.find?_cons, h]

theorem containsKey_cons (kv : String × β) (tl : List (String × β))
    (k : String) :
    containsKey (kv :: tl) k = (kv.1 == k || containsKey tl k) := by
  simp [containsKey, List.any_cons]

theorem lookupKey_append_of_not_contains (m : List (String × β)) (k : String)
    (v : β) (h : containsKey m k = false) :
    lookupKey (m ++ [(k, v)]) k = some v := by
  induction m with
  | nil => simp [lookupKey]
  | cons kv tl ih =>
    rw [containsKey_cons] at h
    rcases Bool.or_eq_false_iff.mp h with ⟨h1, h2⟩
    rw [List.cons_append, lookupKey_cons]
    simp only [h1, Bool.false_eq_true, if_false]
    exact ih h2

theorem lookupKey_map_modify (m : List (String × β)) (k : String) (f : β → β) :
    lookupKey (m.map (fun kv => if kv.1 == k then (kv.1, f kv.2) else kv)) k =
      (lookupKey m k).map f := by
  induction m with
  | nil => rfl
  | cons kv tl ih =>
    by_cases h : kv.1 == k
    · simp only [List.map_cons, h, if_true]
      rw [lookupKey_cons, lookupKey_cons]
      simp [h]
    · simp only [List.map_cons, h, if_false]
      rw [lookupKey_cons, lookupKey_cons]
      simp only [h, Bool.false_eq_true, if_false]
      exact ih

theorem lookupKey_eraseKey (m : List (String × β)) (k : String) :
    lookupKey (eraseKey m k) k = none := by
  induction m with
  | nil => rfl
  | cons kv tl ih =>
    by_cases h : kv.1 == k
    · simpa [eraseKey, h] using ih
    · rw [show eraseKey (kv :: tl) k = kv :: eraseKey tl k by
        simp [eraseKey, h]]
      rw [lookupKey_cons]
      simp only [h, Bool.false_eq_true, if_false]
      exact ih

theorem containsKey_map_modify (m : List (String × β)) (k0 k : String)
    (f : β → β) :
    containsKey
      (m.map (fun kv => if kv.1 == k0 then (kv.1, f kv.2) else kv)) k =
      containsKey m k := by
  induction m with
  | nil => rfl
  | cons kv tl ih =>
    rw [List.map_cons, containsKey_cons, containsKey_cons, ih]
    by_cases h : kv.1 == k0
    · simp [h]
    · simp [h]

theorem containsKey_modifyOrInsert (m : List (String × β)) (k0 k : String)
    (f : β → β) (d : β) (h : containsKey (modifyOrInsert m k0 f d) k = true) :
    containsKey m k = true ∨ k0 = k := by
  unfold modifyOrInsert at h
  by_cases hc : containsKey m k0
  · rw [if_pos hc, containsKey_map_modify] at h
    exact Or.inl h
  · rw [if_neg hc] at h
    rw [show containsKey (m ++ [(k0, d)]) k =
        (containsKey m k || containsKey [(k0, d)] k) by
      simp [containsKey, List.any_append]] at h
    rcases Bool.or_eq_true_iff.mp h with h1 | h1
    · exact Or.inl h1
    · right
      rw [containsKey_cons] at h1
      simp [containsKey] at h1
      exact h1

theorem containsKey_eraseKey_imp (m : List (String × β)) (k0 k : String)
    (h : containsKey (eraseKey m k0) k = true) : containsKey m k = true := by
  unfold containsKey at h ⊢
  rw [List.any_eq_true] at h ⊢
  obtain ⟨kv, hkv, hk⟩ := h
  exact ⟨kv, (List.mem_filter.mp hkv).1, hk⟩

/-- After a successful or attempted `connect_user` towards a distinct peer,
the peer's entry exists and carries the requested type; its type list stays
duplicate-free when the originals were. -/
theorem connect_user_lookup (a : User) (uid : String)
    (t : UserConnectionType) (now : Time) (hne : uid ≠ a.user_id) :
    ∃ c1, lookupKey ((a.connect_user uid t now).1).connected_users uid =
        some c1 ∧ t ∈ c1.connection_types ∧
      ((∀ kc ∈ a.connected_users, kc.2.connection_types.Nodup) →
        c1.connection_types.Nodup) := by
  unfold User.connect_user
  simp only [hne, if_false]
  cases hc : lookupKey a.connected_users uid with
  | none =>
    have hcc : containsKey a.connected_users uid = false := by
      rw [containsKey_eq_isSome_lookupKey, hc]; rfl
    refine ⟨ConnectedUser.new uid t now, ?_, by simp [ConnectedUser.new],
      fun _ => by simp [ConnectedUser.new]⟩
    simp only [hc, if_true, modifyOrInsert, hcc, Bool.false_eq_true, if_false]
    exact lookupKey_append_of_not_contains _ _ _ hcc
  | some c =>
    have hcc : containsKey a.connected_users uid = true := by
      rw [containsKey_eq_isSome_lookupKey, hc]; rfl
    have hmem : ∀ H : (∀ kc ∈ a.connected_users, kc.2.connection_types.Nodup),
        c.connection_types.Nodup := by
      intro H
      have : ∃ kc ∈ a.connected_users, kc.2 = c := by
        unfold lookupKey at hc
        cases hf : a.connected_users.find? (fun kv => kv.1 == uid) with
        | none => simp [hf] at hc
        | some kv =>
          simp [hf] at hc
          exact ⟨kv, List.mem_of_find?_eq_some hf, hc⟩
      obtain ⟨kc, hkc, rfl⟩ := this
      exact H kc hkc
    by_cases ht : c.has_connection_type t
    · refine ⟨c, ?_, ?_, hmem⟩
      · simp [ht, hc]
      · simpa [ConnectedUser.has_connection_type] using ht
    · refine ⟨c.add_connection_type t now, ?_, ?_, ?_⟩
      · simp only [hc, ht, Bool.not_false, if_true, modifyOrInsert, hcc,
          if_true]
        rw [lookupKey_map_modify a.connected_users uid
          (fun c => c.add_connection_type t now), hc]
        rfl
      · have : t ∉ c.connection_types := by
          simpa [ConnectedUser.has_connection_type] using ht
        simp [ConnectedUser.add_connection_type, this]
      · intro H
        have hnd := hmem H
        have : t ∉ c.connection_types := by
          simpa [ConnectedUser.has_connection_type] using ht
        simp [ConnectedUser.add_connection_type, this, List.Nodup.append,
          hnd]

theorem connect_user_fst_user_id (a : User) (uid : String)
    (t : UserConnectionType) (now : Time) :
    (a.connect_user uid t now).1.user_id = a.user_id := by
  unfold User.connect_user
  by_cases h : uid = a.user_id
  · simp [h]
  · simp only [h, if_false]
    split <;> rfl

/-- If every type list in a state is duplicate-free and it contains `t` while
its `t`-free filtering is empty, the list is exactly `[t]`. -/
theorem eq_single_of_filter_ne_eq_nil {l : List UserConnectionType}
    {t : UserConnectionType} (hnd : l.Nodup) (hmem : t ∈ l)
    (hfil : l.filter (fun x => !(x == t)) = []) : l = [t] := by
  have hall : ∀ x ∈ l, x = t := by
    intro x hx
    by_contra hxt
    have : x ∈ l.filter (fun x => !(x == t)) :=
      List.mem_filter.mpr ⟨hx, by simp [hxt]⟩
    simp [hfil] at this
  cases l with
  | nil => simp at hmem
  | cons x xs =>
    have hx := hall x (by simp)
    subst hx
    have hxs : xs = [] := by
      cases xs with
      | nil => rfl
      | cons y ys =>
        have hy := hall y (by simp)
        subst hy
        simp at hnd
    simp [hxs]

/-- C5: for every user state with duplicate-free type sets and every distinct
peer and type, `connect_user(a,b,T)` followed by `disconnect_user(a,b,T)`
leaves `b` absent from the connected-user map or leaves `T` absent from
`b`'s type set; and the peer entry is deleted exactly when removing `T`
empties its type set. -/
theorem connect_then_disconnect (a : User) (uid : String)
    (t : UserConnectionType) (now1 now2 : Time) (hne : uid ≠ a.user_id)
    (hnodup : ∀ kc ∈ a.connected_users, kc.2.connection_types.Nodup) :
    (lookupKey (((a.connect_user uid t now1).1.disconnect_user uid t
          now2).1).connected_users uid = none ∨
      ∃ c2, lookupKey (((a.connect_user uid t now1).1.disconnect_user uid t
          now2).1).connected_users uid = some c2 ∧
        t ∉ c2.connection_types) ∧
    (lookupKey (((a.connect_user uid t now1).1.disconnect_user uid t
          now2).1).connected_users uid = none ↔
      ∃ c1, lookupKey ((a.connect_user uid t now1).1).connected_users uid =
          some c1 ∧
        c1.connection_types.filter (fun x => !(x == t)) = []) := by
  obtain ⟨c1, hc1, htmem, hnd⟩ := connect_user_lookup a uid t now1 hne
  have hnd1 := hnd hnodup
  set a1 := (a.connect_user uid t now1).1 with ha1
  have hne1 : uid ≠ a1.user_id := by
    rw [ha1, connect_user_fst_user_id]
    exact hne
  have hhas : c1.has_connection_type t = true := by
    simpa [ConnectedUser.has_connection_type] using htmem
  by_cases hlen : c1.connection_types.length = 1
  · have hsingle : c1.connection_types = [t] := by
      obtain ⟨x, hx⟩ := List.length_eq_one.mp hlen
      rw [hx] at htmem
      simp at htmem
      rw [hx, htmem]
    have hres : ((a1.disconnect_user uid t now2).1).connected_users =
        eraseKey a1.connected_users uid := by
      unfold User.disconnect_user
      simp only [hne1, if_false, hc1]
      simp [hhas, hlen]
    constructor
    · left
      rw [hres]
      exact lookupKey_eraseKey _ _
    · rw [hres]
      constructor
      · intro _
        exact ⟨c1, hc1, by simp [hsingle]⟩
      · intro _
        exact lookupKey_eraseKey _ _
  · have hres : ((a1.disconnect_user uid t now2).1).connected_users =
        a1.connected_users.map (fun kv => if kv.1 == uid then
          (kv.1, kv.2.remove_connection_type t now2) else kv) := by
      unfold User.disconnect_user
      simp only [hne1, if_false, hc1]
      have hcc : containsKey a1.connected_users uid = true := by
        rw [containsKey_eq_isSome_lookupKey, hc1]; rfl
      simp [hhas, hlen, modifyOrInsert, hcc]
    have hlook : lookupKey (((a1.disconnect_user uid t
        now2).1)).connected_users uid =
        some (c1.remove_connection_type t now2) := by
      rw [hres, lookupKey_map_modify a1.connected_users uid
        (fun c => c.remove_connection_type t now2), hc1]
      rfl
    constructor
    · right
      refine ⟨c1.remove_connection_type t now2, hlook, ?_⟩
      simp [ConnectedUser.remove_connection_type, htmem, List.mem_filter]
    · rw [hlook]
      simp only [Option.some_ne_none, false_iff]
      rintro ⟨c1x, hc1x, hfil⟩
      rw [hc1] at hc1x
      cases hc1x
      have := eq_single_of_filter_ne_eq_nil hnd1 htmem hfil
      rw [this] at hlen
      simp at hlen

/-- C5 witness: user "a" connects to "b" as Friend and disconnects again;
the entry for "b" is gone, and it is gone exactly because the type set
became empty. -/
theorem connect_then_disconnect_witness :
    (lookupKey ((((User.new "a" 0).connect_user "b" .Friend 1).1.disconnect_user
        "b" .Friend 2).1).connected_users "b" = none ∨
      ∃ c2, lookupKey ((((User.new "a" 0).connect_user "b"
          .Friend 1).1.disconnect_user "b" .Friend 2).1).connected_users "b" =
          some c2 ∧ UserConnectionType.Friend ∉ c2.connection_types) ∧
    (lookupKey ((((User.new "a" 0).connect_user "b" .Friend 1).1.disconnect_user
        "b" .Friend 2).1).connected_users "b" = none ↔
      ∃ c1, lookupKey (((User.new "a" 0).connect_user "b"
          .Friend 1).1).connected_users "b" = some c1 ∧
        c1.connection_types.filter
          (fun x => !(x == UserConnectionType.Friend)) = []) :=
  connect_then_disconnect (User.new "a" 0) "b" .Friend 1 2
    (by decide) (by intro kc hkc; simp [User.new] at hkc)

/-- C7: self-connection is impossible: `connect_user(a,a,T)` and
`disconnect_user(a,a,T)` return the state completely unchanged (including
`updated_at`) with result `false`, the agent sends no trigger for them, and
both operations preserve the invariant that the user's own id is not a key
of the connected-user map. -/
theorem self_connection_rejected (agent_id : String) (u : User)
    (uid : String) (t : UserConnectionType) (now : Time) :
    u.connect_user u.user_id t now = (u, false) ∧
    u.disconnect_user u.user_id t now = (u, false) ∧
    UserAgentImpl.connect_user agent_id (some u) u.user_id t now =
      (some u, []) ∧
    UserAgentImpl.disconnect_user agent_id (some u) u.user_id t now =
      (some u, []) ∧
    (containsKey u.connected_users u.user_id = false →
      containsKey ((u.connect_user uid t now).1).connected_users
          ((u.connect_user uid t now).1).user_id = false ∧
      containsKey ((u.disconnect_user uid t now).1).connected_users
          ((u.disconnect_user uid t now).1).user_id = false) := by
  have hc : u.connect_user u.user_id t now = (u, false) := by
    unfold User.connect_user
    simp
  have hd : u.disconnect_user u.user_id t now = (u, false) := by
    unfold User.disconnect_user
    simp
  refine ⟨hc, hd, ?_, ?_, ?_⟩
  · simp [UserAgentImpl.connect_user, hc]
  · simp [UserAgentImpl.disconnect_user, hd]
  · intro hinv
    constructor
    · rw [connect_user_fst_user_id]
      by_cases heq : uid = u.user_id
      · rw [heq, hc]
        exact hinv
      · unfold User.connect_user
        simp only [heq, if_false]
        split
        · simp only
          by_contra hcon
          rcases containsKey_modifyOrInsert u.connected_users uid u.user_id
              _ _ (by simpa using hcon) with h1 | h1
          · rw [hinv] at h1
            exact Bool.false_ne_true h1
          · exact heq h1
        · exact hinv
    · rw [show ((u.disconnect_user uid t now).1).user_id = u.user_id by
        unfold User.disconnect_user
        by_cases h : uid = u.user_id
        · simp [h]
        · simp only [h, if_false]
          split
          · split <;> rfl
          · rfl]
      by_cases heq : uid = u.user_id
      · rw [heq, hd]
        exact hinv
      · unfold User.disconnect_user
        simp only [heq, if_false]
        split
        · split
          · simp only
            by_contra hcon
            have := containsKey_eraseKey_imp u.connected_users uid u.user_id
              (by simpa using hcon)
            rw [hinv] at this
            exact Bool.false_ne_true this
          · simp only
            by_contra hcon
            rcases containsKey_modifyOrInsert u.connected_users uid u.user_id
                _ _ (by simpa using hcon) with h1 | h1
            · rw [hinv] at h1
              exact Bool.false_ne_true h1
            · exact heq h1
        · exact hinv

/-- C7 witness: the invariant-preservation part at a concrete fresh user. -/
theorem self_connection_rejected_witness :
    containsKey (((User.new "a" 0).connect_user "b"
        .Friend 1).1).connected_users
      (((User.new "a" 0).connect_user "b" .Friend 1).1).user_id = false :=
  ((self_connection_rejected "a" (User.new "a" 0) "b" .Friend 1).2.2.2.2
    (by decide)).1

theorem eq_of_mem_of_nodup_keys {l : List (String × β)}
    (h : (l.map Prod.fst).Nodup) {x y : String × β} (hx : x ∈ l) (hy : y ∈ l)
    (hxy : x.1 = y.1) : x = y := by
  induction l with
  | nil => simp at hx
  | cons a tl ih =>
    rw [List.map_cons, List.nodup_cons] at h
    rcases List.mem_cons.mp hx with rfl | hx2
    · rcases List.mem_cons.mp hy with rfl | hy2
      · rfl
      · exact absurd (hxy ▸ List.mem_map_of_mem Prod.fst hy2) h.1
    · rcases List.mem_cons.mp hy with rfl | hy2
      · exact absurd (hxy ▸ List.mem_map_of_mem Prod.fst hx2) h.1
      · exact ih h.2 hx2 hy2

/-- C2: on a drain of a non-empty buffer, a missing creator aborts silently
with no sends; otherwise the creator's own timeline receives the untagged
batch first, every connection whose type set contains Friend receives the
batch tagged Friend, every connection with Follower but not Friend receives
it tagged Follower, and a connection with neither (e.g. only Following) is
never notified. -/
theorem execute_posts_updates_fanout (u : User) (user_id : String)
    (updates : List PostUpdate) (_hne : updates ≠ [])
    (hkeys : (u.connected_users.map Prod.fst).Nodup) :
    execute_posts_updates none user_id updates = (false, []) ∧
    ((execute_posts_updates (some u) user_id updates).2.head? =
      some (user_id, updates.map (fun up =>
        PostRef.new up.post_id user_id up.created_at none up.updated_at))) ∧
    (∀ kc ∈ u.connected_users,
      UserConnectionType.Friend ∈ kc.2.connection_types →
      (kc.1, updates.map (fun up => PostRef.new up.post_id user_id
          up.created_at (some .Friend) up.updated_at)) ∈
        (execute_posts_updates (some u) user_id updates).2) ∧
    (∀ kc ∈ u.connected_users,
      UserConnectionType.Follower ∈ kc.2.connection_types →
      UserConnectionType.Friend ∉ kc.2.connection_types →
      (kc.1, updates.map (fun up => PostRef.new up.post_id user_id
          up.created_at (some .Follower) up.updated_at)) ∈
        (execute_posts_updates (some u) user_id updates).2) ∧
    (∀ kc ∈ u.connected_users,
      UserConnectionType.Friend ∉ kc.2.connection_types →
      UserConnectionType.Follower ∉ kc.2.connection_types →
      kc.1 ≠ user_id →
      ∀ refs, (kc.1, refs) ∉
        (execute_posts_updates (some u) user_id updates).2) := by
  refine ⟨rfl, rfl, ?_, ?_, ?_⟩
  · intro kc hkc hf
    have hnotify : (kc.1, UserConnectionType.Friend) ∈
        notifyUserIds u.connected_users := by
      rw [notifyUserIds, List.mem_filterMap]
      exact ⟨kc, hkc, by simp [hf]⟩
    simp only [execute_posts_updates, execute_posts_update]
    right
    exact List.mem_map.mpr ⟨_, hnotify, rfl⟩
  · intro kc hkc hfo hf
    have hnotify : (kc.1, UserConnectionType.Follower) ∈
        notifyUserIds u.connected_users := by
      rw [notifyUserIds, List.mem_filterMap]
      exact ⟨kc, hkc, by simp [hf, hfo]⟩
    simp only [execute_posts_updates, execute_posts_update]
    right
    exact List.mem_map.mpr ⟨_, hnotify, rfl⟩
  · intro kc hkc hf hfo hself refs hmem
    simp only [execute_posts_updates, execute_posts_update,
      List.mem_cons] at hmem
    rcases hmem with hmem | hmem
    · exact hself (congrArg Prod.fst hmem)
    · rw [List.mem_map] at hmem
      obtain ⟨ct, hct, heq⟩ := hmem
      rw [notifyUserIds, List.mem_filterMap] at hct
      obtain ⟨kc2, hkc2, hsome⟩ := hct
      have hct1 : ct.1 = kc.1 := congrArg Prod.fst heq
      have hkey : kc2.1 = kc.1 := by
        by_cases h1 : UserConnectionType.Friend ∈ kc2.2.connection_types
        · simp [h1] at hsome
          exact (congrArg Prod.fst hsome).trans hct1
        · by_cases h2 : UserConnectionType.Follower ∈ kc2.2.connection_types
          · simp [h1, h2] at hsome
            exact (congrArg Prod.fst hsome).trans hct1
          · simp [h1, h2] at hsome
      have : kc2 = kc := eq_of_mem_of_nodup_keys hkeys hkc2 hkc hkey
      subst this
      by_cases h1 : UserConnectionType.Friend ∈ kc2.2.connection_types
      · exact hf h1
      · by_cases h2 : UserConnectionType.Follower ∈ kc2.2.connection_types
        · exact hfo h2
        · simp [h1, h2] at hsome

/-- Connected-user constructor shared by the concrete witnesses. -/
def mkConn (id : String) (ts : List UserConnectionType) : ConnectedUser :=
  { user_id := id, connection_types := ts, created_at := 0, updated_at := 0 }

/-- Concrete user for the C2 witness: friend, friend-and-follower,
follower-only, and following-only connections. -/
def userC2 : User :=
  { user_id := "creator", name := none, email := none,
    connected_users :=
      [("f1", mkConn "f1" [.Friend]),
       ("f2", mkConn "f2" [.Follower, .Friend]),
       ("f3", mkConn "f3" [.Follower]),
       ("f4", mkConn "f4" [.Following])],
    created_at := 0, updated_at := 0 }

/-- C2 witness: at a concrete drain, the friend-priority target is tagged
Friend with the batch and the following-only target receives nothing. -/
theorem execute_posts_updates_fanout_witness :
    (("f2", [PostRef.new "p1" "creator" 3 (some .Friend) 4]) ∈
      (execute_posts_updates (some userC2) "creator"
        [{ post_id := "p1", created_at := 3, updated_at := 4 }]).2) ∧
    (∀ refs, ("f4", refs) ∉
      (execute_posts_updates (some userC2) "creator"
        [{ post_id := "p1", created_at := 3, updated_at := 4 }]).2) := by
  have h := execute_posts_updates_fanout userC2 "creator"
    [{ post_id := "p1", created_at := 3, updated_at := 4 }]
    (by decide) (by decide)
  constructor
  · have hin := h.2.2.1 ("f2", mkConn "f2" [.Follower, .Friend])
      (by simp [userC2]) (by decide)
    simpa using hin
  · intro refs
    exact h.2.2.2.2 ("f4", mkConn "f4" [.Following]) (by simp [userC2])
      (by decide) (by decide) (by decide) refs

theorem postRefDescUpdated_trans (a b c : PostRef)
    (h1 : postRefDescUpdated a b = true) (h2 : postRefDescUpdated b c = true) :
    postRefDescUpdated a c = true := by
  simp [postRefDescUpdated] at h1 h2 ⊢
  exact h2.trans h1

theorem postRefDescUpdated_total (a b : PostRef) :
    (postRefDescUpdated a b || postRefDescUpdated b a) = true := by
  simp [postRefDescUpdated]
  exact Nat.le_total b.updated_at a.updated_at

/-- Timeline entry of the C1 concrete instance, with id and both timestamps
derived from `k`. -/
def mkRefC1 (k : Nat) : PostRef := PostRef.new (toString k) "creator" k none k

/-- 501 distinct posts, most recently updated first. -/
def batchC1 : List PostRef := (List.range 501).map (fun i => mkRefC1 (500 - i))

/-- Timeline with no posts yet. -/
def emptyTimelineC1 : UserTimeline :=
  { user_id := "u", posts := [], created_at := 0, updated_at := 0 }

/-- C1 (spec-modelled `posts_updated`): the merge keeps at most 500 entries,
sorted descending by `updated_at`; every surviving entry either comes from
the batch or is a pre-existing entry whose id is absent from the batch
(last write wins by post id), and a pre-existing entry sharing an id with
the batch does not survive; in particular, merging 501 distinct posts into
an empty timeline retains exactly the 500 most recently updated. -/
theorem posts_updated_merge (tl : UserTimeline) (batch : List PostRef)
    (now : Time) :
    ((tl.posts_updated batch now).posts.length ≤ 500) ∧
    ((tl.posts_updated batch now).posts.Pairwise
      (fun a b => b.updated_at ≤ a.updated_at)) ∧
    (∀ p ∈ (tl.posts_updated batch now).posts,
      p ∈ batch ∨ (p ∈ tl.posts ∧ ∀ b ∈ batch, b.post_id ≠ p.post_id)) ∧
    (∀ p ∈ tl.posts, (∃ b ∈ batch, b.post_id = p.post_id) → p ∉ batch →
      p ∉ (tl.posts_updated batch now).posts) ∧
    ((emptyTimelineC1.posts_updated batchC1 now).posts =
      (List.range 500).map (fun i => mkRefC1 (500 - i))) := by
  refine ⟨?_, ?_, ?_, ?_, ?_⟩
  · simp only [UserTimeline.posts_updated, TIMELINE_POSTS_MAX_COUNT]
    exact List.length_take_le 500 _
  · have hall := List.sorted_mergeSort postRefDescUpdated_trans
      postRefDescUpdated_total
      ((tl.posts.filter (fun p =>
        !(batch.any (fun b => b.post_id == p.post_id)))) ++ batch)
    have hsub := List.Pairwise.sublist (List.take_sublist 500
      (((tl.posts.filter (fun p =>
        !(batch.any (fun b => b.post_id == p.post_id)))) ++
        batch).mergeSort postRefDescUpdated)) hall
    simpa [UserTimeline.posts_updated, TIMELINE_POSTS_MAX_COUNT,
      postRefDescUpdated] using hsub
  · intro p hp
    simp only [UserTimeline.posts_updated, TIMELINE_POSTS_MAX_COUNT] at hp
    have hp2 := List.mem_mergeSort.mp ((List.take_sublist 500 _).mem hp)
    rcases List.mem_append.mp hp2 with hp3 | hp3
    · right
      obtain ⟨hmem, hpred⟩ := List.mem_filter.mp hp3
      refine ⟨hmem, ?_⟩
      intro b hb
      simp only [Bool.not_eq_eq_eq_not, Bool.not_true, List.any_eq_false]
        at hpred
      simpa using hpred b hb
    · exact Or.inl hp3
  · intro p hp hex hnb hmem
    simp only [UserTimeline.posts_updated, TIMELINE_POSTS_MAX_COUNT] at hmem
    have hp2 := List.mem_mergeSort.mp ((List.take_sublist 500 _).mem hmem)
    rcases List.mem_append.mp hp2 with hp3 | hp3
    · obtain ⟨_, hpred⟩ := List.mem_filter.mp hp3
      obtain ⟨b, hb, hid⟩ := hex
      simp only [Bool.not_eq_eq_eq_not, Bool.not_true, List.any_eq_false]
        at hpred
      exact absurd (by simpa using hid) (by simpa using hpred b hb)
    · exact hnb hp3
  · have hbatch : (emptyTimelineC1.posts_updated batchC1 now).posts =
        (batchC1.mergeSort postRefDescUpdated).take 500 := by
      simp [UserTimeline.posts_updated, emptyTimelineC1,
        TIMELINE_POSTS_MAX_COUNT]
    have hsorted : batchC1.Pairwise (fun a b => postRefDescUpdated a b) := by
      unfold batchC1
      rw [List.pairwise_map]
      refine (List.pairwise_lt_range 501).imp ?_
      intro i j hij
      simp only [postRefDescUpdated, mkRefC1, PostRef.new, decide_eq_true_eq]
      exact Nat.sub_le_sub_left (Nat.le_of_lt hij) 500
    rw [hbatch, List.mergeSort_of_sorted (by simpa using hsorted)]
    unfold batchC1
    rw [← List.map_take, List.take_range]
    rfl

theorem pollFrom_count_le (fetch : Nat → Option (List α)) (i m : Nat) :
    ∀ fuel k, (pollFrom fetch i m k fuel).2 ≤ fuel := by
  intro fuel
  induction fuel with
  | zero => intro k; simp [pollFrom]
  | succ fuel ih =>
    intro k
    simp only [pollFrom]
    cases fetch k with
    | none => simp
    | some updates =>
      by_cases he : updates.isEmpty
      · by_cases hm : m ≤ k * i
        · simp [he, hm]
        · simpa [he, hm] using ih (k + 1)
      · simp [he]

/-- Running the loop past `d` consecutive iterations that fetched an empty
list before the deadline shifts the start index and spends `d` fuel. -/
theorem pollFrom_shift (fetch : Nat → Option (List α)) (i m : Nat) :
    ∀ d k fuel,
      (∀ j, k ≤ j → j < k + d → fetch j = some [] ∧ ¬ m ≤ j * i) →
      d ≤ fuel →
      pollFrom fetch i m k fuel =
        ((pollFrom fetch i m (k + d) (fuel - d)).1,
         (pollFrom fetch i m (k + d) (fuel - d)).2 + d) := by
  intro d
  induction d with
  | zero => intro k fuel h hd; simp
  | succ d ih =>
    intro k fuel h hd
    obtain ⟨fuel2, rfl⟩ : ∃ fuel2, fuel = fuel2 + 1 := ⟨fuel - 1, by omega⟩
    have hk := h k (Nat.le_refl k) (by omega)
    have hrec := ih (k + 1) fuel2
      (fun j hj1 hj2 => h j (by omega) (by omega)) (by omega)
    have hstep : pollFrom fetch i m k (fuel2 + 1) =
        ((pollFrom fetch i m (k + 1) fuel2).1,
         (pollFrom fetch i m (k + 1) fuel2).2 + 1) := by
      simp [pollFrom, hk.1, hk.2]
    rw [hstep, hrec,
      show k + 1 + d = k + (d + 1) by omega,
      show fuel2 - d = fuel2 + 1 - (d + 1) by omega,
      Nat.add_assoc]

/-- C8: with any injected fetch function (results indexed by iteration) and
a positive applied iteration wait (the defaults are 1000ms and 10000ms),
the long-poll loop returns `none` at the first fetch returning `none`,
returns the first non-empty fetched list, and when every fetch is empty it
returns `some []` at the first iteration whose elapsed time reaches the max
wait, having slept `K` times for a total strictly below max wait plus one
iteration; the number of fetch iterations is always bounded by
`maxWait / iterWait + 2`. -/
theorem poll_for_updates_behavior {α : Type} (fetch : Nat → Option (List α))
    (iterOpt maxOpt : Option Nat) (hiter : 0 < iterOpt.getD 1000) :
    (∀ k, (∀ j < k, fetch j = some [] ∧
        j * iterOpt.getD 1000 < maxOpt.getD 10000) →
      fetch k = none → (poll_for_updates fetch iterOpt maxOpt).1 = none) ∧
    (∀ k l, (∀ j < k, fetch j = some [] ∧
        j * iterOpt.getD 1000 < maxOpt.getD 10000) →
      fetch k = some l → l ≠ [] →
      (poll_for_updates fetch iterOpt maxOpt).1 = some l) ∧
    ((∀ k, fetch k = some []) →
      ∃ K, poll_for_updates fetch iterOpt maxOpt = (some [], K + 1) ∧
        maxOpt.getD 10000 ≤ K * iterOpt.getD 1000 ∧
        (∀ j < K, j * iterOpt.getD 1000 < maxOpt.getD 10000) ∧
        K * iterOpt.getD 1000 <
          maxOpt.getD 10000 + iterOpt.getD 1000) ∧
    ((poll_for_updates fetch iterOpt maxOpt).2 ≤
      maxOpt.getD 10000 / iterOpt.getD 1000 + 2) := by
  obtain ⟨i, hi⟩ : ∃ x, x = iterOpt.getD 1000 := ⟨_, rfl⟩
  obtain ⟨m, hm⟩ : ∃ x, x = maxOpt.getD 10000 := ⟨_, rfl⟩
  rw [← hi] at hiter
  rw [← hi, ← hm]
  have hpoll : poll_for_updates fetch iterOpt maxOpt =
      pollFrom fetch i m 0 (m / i + 2) := by
    simp only [poll_for_updates]
    rw [← hi, ← hm]
  have hdm := Nat.div_add_mod (m + i - 1) i
  have hmod : (m + i - 1) % i < i := Nat.mod_lt _ hiter
  have hdm2 := Nat.div_add_mod m i
  have hmod2 : m % i < i := Nat.mod_lt _ hiter
  have hK1 : m ≤ (m + i - 1) / i * i := by
    have hc : i * ((m + i - 1) / i) = (m + i - 1) / i * i := Nat.mul_comm _ _
    omega
  have hK2 : ∀ j < (m + i - 1) / i, j * i < m := by
    intro j hjK
    by_contra hle
    have hle2 : m ≤ j * i := by omega
    have hdle : (m + i - 1) / i ≤ j := by
      refine (Nat.div_le_iff_le_mul_add_pred hiter).mpr ?_
      have hc : i * j = j * i := Nat.mul_comm i j
      omega
    omega
  have hKb : (m + i - 1) / i ≤ m / i + 1 := by
    refine (Nat.div_le_iff_le_mul_add_pred hiter).mpr ?_
    have hexp : i * (m / i + 1) = i * (m / i) + i := by ring
    omega
  have hfuel : ∀ k, (∀ j < k, fetch j = some [] ∧ j * i < m) →
      k ≤ m / i + 1 := by
    intro k hj
    rcases Nat.eq_zero_or_pos k with rfl | hk
    · exact Nat.zero_le _
    · have hlt := (hj (k - 1) (by omega)).2
      have h2 : k - 1 ≤ m / i :=
        (Nat.le_div_iff_mul_le hiter).mpr (by omega)
      omega
  refine ⟨?_, ?_, ?_, ?_⟩
  · intro k hj hk
    have hb := hfuel k hj
    have hsh := pollFrom_shift fetch i m k 0 (m / i + 2)
      (fun j hj1 hj2 => ⟨(hj j (by omega)).1, by
        have := (hj j (by omega)).2
        omega⟩) (by omega)
    simp only [Nat.zero_add] at hsh
    rw [hpoll, hsh]
    obtain ⟨fuel2, hfe⟩ : ∃ fuel2, m / i + 2 - k = fuel2 + 1 :=
      ⟨m / i + 1 - k, by omega⟩
    rw [hfe]
    simp [pollFrom, hk]
  · intro k l hj hk hl
    have hb := hfuel k hj
    have hsh := pollFrom_shift fetch i m k 0 (m / i + 2)
      (fun j hj1 hj2 => ⟨(hj j (by omega)).1, by
        have := (hj j (by omega)).2
        omega⟩) (by omega)
    simp only [Nat.zero_add] at hsh
    rw [hpoll, hsh]
    obtain ⟨fuel2, hfe⟩ : ∃ fuel2, m / i + 2 - k = fuel2 + 1 :=
      ⟨m / i + 1 - k, by omega⟩
    rw [hfe]
    simp [pollFrom, hk, List.isEmpty_iff, hl]
  · intro hall
    refine ⟨(m + i - 1) / i, ?_, ?_, hK2, ?_⟩
    · have hsh := pollFrom_shift fetch i m ((m + i - 1) / i) 0 (m / i + 2)
        (fun j hj1 hj2 => ⟨hall j, by
          have := hK2 j (by omega)
          omega⟩) (by omega)
      simp only [Nat.zero_add] at hsh
      rw [hpoll, hsh]
      obtain ⟨fuel2, hfe⟩ : ∃ fuel2,
          m / i + 2 - (m + i - 1) / i = fuel2 + 1 :=
        ⟨m / i + 1 - (m + i - 1) / i, by omega⟩
      rw [hfe]
      have hKd : m ≤ (m + i - 1) / i * i := hK1
      simp only [pollFrom, hall, List.isEmpty_nil, if_true, hKd, if_pos]
      rw [Prod.mk.injEq]
      exact ⟨rfl, by omega⟩
    · exact hK1
    · have hc : i * ((m + i - 1) / i) = (m + i - 1) / i * i := Nat.mul_comm _ _
      omega
  · rw [hpoll]
    exact pollFrom_count_le fetch i m _ 0

/-- C8 witness: with the default waits and a fetch that always returns an
empty list, the loop returns `some []` after `K + 1` fetches for a stop
index `K` whose accumulated sleep reaches 10000ms but stays below
10000ms + 1000ms. -/
theorem poll_for_updates_behavior_witness :
    ∃ K, poll_for_updates (fun _ => some ([] : List Nat)) none none =
        (some [], K + 1) ∧
      10000 ≤ K * 1000 ∧ (∀ j < K, j * 1000 < 10000) ∧
      K * 1000 < 10000 + 1000 :=
  (poll_for_updates_behavior (fun _ => some ([] : List Nat)) none none
    (by decide)).2.2.1 (fun _ => rfl)

/-! ### Comment subtree removal (C4) -/

/-- `c` is a direct reply to `p` in the comment map: some entry keyed `c`
has parent pointer `p`. -/
def childOf (comments : List (String × Comment)) (p c : String) : Prop :=
  ∃ cm, (c, cm) ∈ comments ∧ cm.parent_comment_id = some p

/-- Heads: `collectGo` always lists the root first. -/
theorem self_mem_collectGo (comments : List (String × Comment)) :
    ∀ fuel c, c ∈ collectGo comments fuel c := by
  intro fuel c
  cases fuel with
  | zero => simp [collectGo]
  | succ fuel => simp [collectGo]

/-- Soundness: everything collected is the root or one of its transitive
descendants. -/
theorem mem_collectGo_sound (comments : List (String × Comment))
    (hkey : ∀ kc ∈ comments, kc.1 = kc.2.comment_id) :
    ∀ fuel c x, x ∈ collectGo comments fuel c →
      x = c ∨ Relation.TransGen (childOf comments) c x := by
  intro fuel
  induction fuel with
  | zero =>
    intro c x hx
    simp [collectGo] at hx
    exact Or.inl hx
  | succ fuel ih =>
    intro c x hx
    simp only [collectGo, List.mem_cons, List.mem_flatMap,
      List.mem_filter] at hx
    rcases hx with rfl | ⟨kc, ⟨hkc, hpar⟩, hx2⟩
    · exact Or.inl rfl
    · have hpar2 : kc.2.parent_comment_id = some c := by
        simpa using hpar
      have hchild : childOf comments c kc.2.comment_id := by
        refine ⟨kc.2, ?_, hpar2⟩
        rcases kc with ⟨k, cm⟩
        have hk2 : k = cm.comment_id := hkey (k, cm) hkc
        rw [show ((k, cm).2).comment_id = k from hk2.symm]
        exact hkc
      rcases ih kc.2.comment_id x hx2 with rfl | htrans
      · exact Or.inr (Relation.TransGen.single hchild)
      · exact Or.inr (Relation.TransGen.head hchild htrans)

/-- Completeness along a chain: the last node of a reply chain rooted at `a`
is collected whenever the fuel covers the chain length. -/
theorem getLast_mem_collectGo (comments : List (String × Comment))
    (hkey : ∀ kc ∈ comments, kc.1 = kc.2.comment_id) :
    ∀ (l : List String) (a : String) (fuel : Nat),
      List.Chain (childOf comments) a l → l ≠ [] → l.length ≤ fuel →
      (a :: l).getLast (by simp) ∈ collectGo comments fuel a := by
  intro l
  induction l with
  | nil => intro a fuel _ hne _; exact absurd rfl hne
  | cons b l2 ih =>
    intro a fuel hch _ hfuel
    obtain ⟨fuel2, rfl⟩ : ∃ fuel2, fuel = fuel2 + 1 :=
      ⟨fuel - 1, by simp at hfuel; omega⟩
    rw [List.chain_cons] at hch
    obtain ⟨⟨cm, hcm, hpar⟩, hch2⟩ := hch
    have hkb : cm.comment_id = b := (hkey (b, cm) hcm).symm
    have hmem_filter : (b, cm) ∈ comments.filter
        (fun kc => kc.2.parent_comment_id == some a) := by
      rw [List.mem_filter]
      exact ⟨hcm, by simp [hpar]⟩
    have hsub : ∀ y ∈ collectGo comments fuel2 b,
        y ∈ collectGo comments (fuel2 + 1) a := by
      intro y hy
      simp only [collectGo, List.mem_cons, List.mem_flatMap]
      right
      exact ⟨(b, cm), hmem_filter, by simpa [hkb] using hy⟩
    cases l2 with
    | nil =>
      simpa using hsub b (self_mem_collectGo comments fuel2 b)
    | cons c l3 =>
      have hlast : ((a :: b :: c :: l3).getLast (by simp)) =
          ((b :: c :: l3).getLast (by simp)) := by
        simp [List.getLast]
      rw [hlast]
      refine hsub _ (ih b fuel2 hch2 (by simp) ?_)
      simp at hfuel ⊢
      omega

/-- A direct reply has rank exactly one above its parent (from the supplied
depth function). -/
theorem rank_childOf (comments : List (String × Comment))
    (rank : String → Nat)
    (hkey : ∀ kc ∈ comments, kc.1 = kc.2.comment_id)
    (hrank : ∀ kc ∈ comments, ∀ pid,
      kc.2.parent_comment_id = some pid →
      rank kc.2.comment_id = rank pid + 1)
    {a b : String} (h : childOf comments a b) : rank b = rank a + 1 := by
  obtain ⟨cm, hcm, hpar⟩ := h
  have hb : b = cm.comment_id := hkey (b, cm) hcm
  rw [hb]
  exact hrank (b, cm) hcm a hpar

theorem rank_lt_of_transGen (comments : List (String × Comment))
    (rank : String → Nat)
    (hkey : ∀ kc ∈ comments, kc.1 = kc.2.comment_id)
    (hrank : ∀ kc ∈ comments, ∀ pid,
      kc.2.parent_comment_id = some pid →
      rank kc.2.comment_id = rank pid + 1)
    {a b : String} (h : Relation.TransGen (childOf comments) a b) :
    rank a < rank b := by
  induction h with
  | single h1 =>
    rw [rank_childOf comments rank hkey hrank h1]
    omega
  | tail _ h2 ih =>
    rw [rank_childOf comments rank hkey hrank h2]
    omega

theorem chain_rank_pairwise (comments : List (String × Comment))
    (rank : String → Nat)
    (hkey : ∀ kc ∈ comments, kc.1 = kc.2.comment_id)
    (hrank : ∀ kc ∈ comments, ∀ pid,
      kc.2.parent_comment_id = some pid →
      rank kc.2.comment_id = rank pid + 1) :
    ∀ (l : List String) (a : String), List.Chain (childOf comments) a l →
      (a :: l).Pairwise (fun x y => rank x < rank y) := by
  intro l
  induction l with
  | nil => intro a _; simp
  | cons b l2 ih =>
    intro a hch
    rw [List.chain_cons] at hch
    have hpw := ih b hch.2
    have hab : rank a < rank b := by
      rw [rank_childOf comments rank hkey hrank hch.1]
      omega
    rw [List.pairwise_cons]
    refine ⟨?_, hpw⟩
    intro y hy
    rcases List.mem_cons.mp hy with rfl | hy2
    · exact hab
    · exact hab.trans ((List.pairwise_cons.mp hpw).1 y hy2)

theorem chain_mem_child (comments : List (String × Comment)) :
    ∀ (l : List String) (a : String), List.Chain (childOf comments) a l →
      ∀ y ∈ l, ∃ z, childOf comments z y := by
  intro l
  induction l with
  | nil => intro a _ y hy; simp at hy
  | cons b l2 ih =>
    intro a hch y hy
    rw [List.chain_cons] at hch
    rcases List.mem_cons.mp hy with rfl | hy2
    · exact ⟨a, hch.1⟩
    · exact ih b hch.2 y hy2

/-- Everything collected by `collect_comments_to_remove` is the root or a
transitive descendant, and conversely — on a duplicate-free, key-consistent,
depth-ranked comment map the fuel `comments.length` covers every reply
chain. -/
theorem mem_collect_iff (comments : List (String × Comment)) (cid : String)
    (rank : String → Nat)
    (hkey : ∀ kc ∈ comments, kc.1 = kc.2.comment_id)
    (hrank : ∀ kc ∈ comments, ∀ pid,
      kc.2.parent_comment_id = some pid →
      rank kc.2.comment_id = rank pid + 1)
    (hcid : cid ∈ comments.map Prod.fst) :
    ∀ x, x ∈ collectCommentsToRemove comments cid ↔
      (x = cid ∨ Relation.TransGen (childOf comments) cid x) := by
  intro x
  constructor
  · exact mem_collectGo_sound comments hkey comments.length cid x
  · intro hx
    rcases hx with rfl | htrans
    · exact self_mem_collectGo comments comments.length x
    · obtain ⟨l, hch, hlast⟩ :=
        List.exists_chain_of_relationReflTransGen htrans.to_reflTransGen
      have hne : l ≠ [] := by
        intro hl
        subst hl
        simp at hlast
        subst hlast
        exact absurd (rank_lt_of_transGen comments rank hkey hrank htrans)
          (by omega)
      have hpw := chain_rank_pairwise comments rank hkey hrank l cid hch
      have hnd : (cid :: l).Nodup := by
        refine hpw.imp ?_
        intro a b hab
        intro hEq
        rw [hEq] at hab
        omega
      have hsubset : (cid :: l) ⊆ comments.map Prod.fst := by
        intro y hy
        rcases List.mem_cons.mp hy with rfl | hy2
        · exact hcid
        · obtain ⟨z, cm, hcm, _⟩ := chain_mem_child comments l cid hch y hy2
          exact List.mem_map_of_mem Prod.fst hcm
      have hlen : (cid :: l).length ≤ comments.length := by
        have := (List.subperm_of_subset hnd hsubset).length_le
        simpa using this
      have hfuel : l.length ≤ comments.length := by
        simp at hlen
        omega
      have := getLast_mem_collectGo comments hkey l cid comments.length
        hch hne hfuel
      rw [hlast] at this
      exact this

theorem countP_split (l : List γ) (p : γ → Bool) :
    l.length = l.countP p + l.countP (fun a => !p a) := by
  induction l with
  | nil => simp
  | cons a tl ih =>
    by_cases h : p a
    · simp [List.countP_cons, h, ih]
      omega
    · simp [List.countP_cons, h, ih]
      omega

theorem countP_or_of_disjoint (l : List γ) (p q : γ → Bool)
    (h : ∀ x ∈ l, ¬(p x = true ∧ q x = true)) :
    l.countP (fun x => p x || q x) = l.countP p + l.countP q := by
  induction l with
  | nil => simp
  | cons a tl ih =>
    have ha := h a (by simp)
    have ih2 := ih (fun x hx => h x (by simp [hx]))
    by_cases hp : p a
    · have hq : q a = false := by
        cases hqv : q a
        · rfl
        · exact absurd ⟨hp, hqv⟩ ha
      simp [List.countP_cons, hp, hq, ih2]
      omega
    · by_cases hq : q a
      · simp [List.countP_cons, hp, hq, ih2]
        omega
      · simp [List.countP_cons, hp, hq, ih2]

open Classical

/-- C4: `remove_comment` of an absent id fails with "Comment not found";
on a comment map forming a reply forest (keys match ids, keys unique, a
depth function witnesses acyclicity) removing a present comment `cid`
removes exactly `cid` and its transitive descendants across any depth — an
entry survives iff it is neither `cid` nor a descendant — so the number of
removed entries is one plus the number of descendant entries, and every
comment outside the subtree (including sibling subtrees) is untouched.
The descendant count is stated with classical decidability. -/
theorem remove_comment_subtree (p : Post) (cid : String) (now : Time)
    (rank : String → Nat)
    (hkey : ∀ kc ∈ p.comments, kc.1 = kc.2.comment_id)
    (hnodup : (p.comments.map Prod.fst).Nodup)
    (hrank : ∀ kc ∈ p.comments, ∀ pid,
      kc.2.parent_comment_id = some pid →
      rank kc.2.comment_id = rank pid + 1) :
    (containsKey p.comments cid = false →
      p.remove_comment cid now = .error "Comment not found") ∧
    (containsKey p.comments cid = true →
      ∃ p2, p.remove_comment cid now = .ok p2 ∧
        (∀ kc, kc ∈ p2.comments ↔ (kc ∈ p.comments ∧
          ¬(kc.1 = cid ∨
            Relation.TransGen (childOf p.comments) cid kc.1))) ∧
        p2.comments.length + 1 +
          p.comments.countP (fun kc => decide
            (Relation.TransGen (childOf p.comments) cid kc.1)) =
          p.comments.length) := by
  constructor
  · intro h
    unfold Post.remove_comment
    rw [h]
    rfl
  · intro h
    have hcid : cid ∈ p.comments.map Prod.fst := by
      unfold containsKey at h
      rw [List.any_eq_true] at h
      obtain ⟨kv, hkv, hk⟩ := h
      have hk2 : kv.1 = cid := by simpa using hk
      rw [← hk2]
      exact List.mem_map_of_mem Prod.fst hkv
    have hiff := mem_collect_iff p.comments cid rank hkey hrank hcid
    refine ⟨{ p with
        comments := p.comments.filter (fun kc =>
          !((collectCommentsToRemove p.comments cid).contains kc.1))
        updated_at := now }, ?_, ?_, ?_⟩
    · unfold Post.remove_comment
      rw [h]
      rfl
    · intro kc
      simp only [List.mem_filter, Bool.not_eq_eq_eq_not, Bool.not_true]
      constructor
      · rintro ⟨hm, hc⟩
        refine ⟨hm, ?_⟩
        intro hd
        have hmc : kc.1 ∈ collectCommentsToRemove p.comments cid :=
          (hiff kc.1).mpr hd
        rw [show ((collectCommentsToRemove p.comments cid).contains kc.1) =
            true by simpa using hmc] at hc
        exact Bool.noConfusion hc
      · rintro ⟨hm, hd⟩
        refine ⟨hm, ?_⟩
        cases hcv : ((collectCommentsToRemove p.comments cid).contains kc.1)
        · rfl
        · exact absurd ((hiff kc.1).mp (by simpa using hcv)) hd
    · have hcongr : p.comments.countP (fun kc =>
          (collectCommentsToRemove p.comments cid).contains kc.1) =
          p.comments.countP (fun kc => (kc.1 == cid) || decide
            (Relation.TransGen (childOf p.comments) cid kc.1)) := by
        refine List.countP_congr ?_
        intro kc _
        constructor
        · intro hc
          have := (hiff kc.1).mp (by simpa using hc)
          simpa [Bool.or_eq_true, decide_eq_true_eq, beq_iff_eq] using this
        · intro hc
          have : kc.1 = cid ∨
              Relation.TransGen (childOf p.comments) cid kc.1 := by
            simpa [Bool.or_eq_true, decide_eq_true_eq, beq_iff_eq] using hc
          simpa using (hiff kc.1).mpr this
      have hdisj : p.comments.countP (fun kc => (kc.1 == cid) || decide
          (Relation.TransGen (childOf p.comments) cid kc.1)) =
          p.comments.countP (fun kc => kc.1 == cid) +
          p.comments.countP (fun kc => decide
            (Relation.TransGen (childOf p.comments) cid kc.1)) := by
        refine countP_or_of_disjoint _ _ _ ?_
        rintro kc _ ⟨h1, h2⟩
        rw [beq_iff_eq] at h1
        rw [decide_eq_true_eq, h1] at h2
        exact absurd (rank_lt_of_transGen p.comments rank hkey hrank h2)
          (by omega)
      have hone : p.comments.countP (fun kc => kc.1 == cid) = 1 := by
        rw [show (fun kc : String × Comment => kc.1 == cid) =
            ((fun k => k == cid) ∘ Prod.fst) from rfl, ← List.countP_map]
        rw [show List.countP (fun k => k == cid) (p.comments.map Prod.fst) =
            List.count cid (p.comments.map Prod.fst) from rfl]
        exact List.count_eq_one_of_mem hnodup hcid
      have hsplit := countP_split p.comments (fun kc =>
        (collectCommentsToRemove p.comments cid).contains kc.1)
      have hfil : (p.comments.filter (fun kc =>
          !((collectCommentsToRemove p.comments cid).contains kc.1))).length =
          p.comments.countP (fun kc =>
            !((collectCommentsToRemove p.comments cid).contains kc.1)) :=
        (List.countP_eq_length_filter _ _).symm
      show (p.comments.filter (fun kc =>
          !((collectCommentsToRemove p.comments cid).contains kc.1))).length +
          1 + p.comments.countP (fun kc => decide
            (Relation.TransGen (childOf p.comments) cid kc.1)) =
          p.comments.length
      rw [hfil]
      omega

/-- The spec's example tree `c1 → c2 → c4`, `c1 → c3` as a concrete post. -/
def postC4 : Post :=
  { post_id := "p", content := "x", created_by := "u1", likes := [],
    comments :=
      [("c1", Comment.new "c1" "u2" "Comment 1" none 1),
       ("c2", Comment.new "c2" "u3" "Comment 2" (some "c1") 2),
       ("c3", Comment.new "c3" "u4" "Comment 3" (some "c1") 3),
       ("c4", Comment.new "c4" "u5" "Comment 4" (some "c2") 4)],
    created_at := 0, updated_at := 0 }

/-- Depth function of the C4 witness tree. -/
def rankC4 (s : String) : Nat :=
  if s = "c1" then 0 else if s = "c4" then 2 else 1

/-- C4 witness: the theorem applied to the spec's example tree (removing
`c2` with descendant `c4`). -/
theorem remove_comment_subtree_witness :
    ∃ p2, postC4.remove_comment "c2" 9 = .ok p2 ∧
      (∀ kc, kc ∈ p2.comments ↔ (kc ∈ postC4.comments ∧
        ¬(kc.1 = "c2" ∨
          Relation.TransGen (childOf postC4.comments) "c2" kc.1))) ∧
      p2.comments.length + 1 +
        postC4.comments.countP (fun kc => decide
          (Relation.TransGen (childOf postC4.comments) "c2" kc.1)) =
        postC4.comments.length :=
  (remove_comment_subtree postC4 "c2" 9 rankC4
    (by intro kc hkc; fin_cases hkc <;> rfl)
    (by decide)
    (by
      intro kc hkc
      fin_cases hkc <;> intro pid hpid <;> simp [Comment.new] at hpid <;>
        subst hpid <;> decide)).2 (by decide)

end SocialNet
